import Mathlib

/-!
# Verification of the process-unique ID generator (`snowflake`)

Shallow embedding of `src/process_unique_id.rs`.  The source combines a
process-wide atomic counter (`GLOBAL_COUNTER`, a `usize`, claimed via the
CAS loop `next_global`) with a thread-local allocation block
(`NEXT_LOCAL_UNIQUE_ID`, a `ProcessUniqueId` holding the next identifier to
hand out).  `ProcessUniqueId::new` returns the stored block and then
advances it: ordinary requests bump `offset` by one; when the stored
`offset` is `u64::MAX` the stored block is replaced by a freshly claimed
prefix at offset 0 (the request still returns the old, exhausted value).

We model machine integers as `Nat` (the embedding fixes a 64-bit platform,
so `usize::MAX = u64::MAX = 2^64 - 1`), panics as `Option.none`, and the
single-threaded execution of one thread as explicit state passing of a
`ThreadState` carrying that thread's block together with the process-wide
counter.  The Rust field `prefix` is called `pfx` here (`prefix` is a
reserved word in Lean).
-/

set_option autoImplicit false

namespace Snowflake

/-- `u64::MAX = 2^64 - 1`. -/
def u64Max : Nat := 18446744073709551615

/-- `usize::MAX` on the 64-bit platform modelled here: `2^64 - 1`. -/
def usizeMax : Nat := 18446744073709551615

/-- Initial value of `GLOBAL_COUNTER` (`AtomicUsize::new(0)`). -/
def globalCounterInit : Nat := 0

/-- Embedding of `next_global`.  The CAS loop, run without interference
(state passed explicitly), loads the counter, asserts it is below
`usize::MAX` (the "Snow Crash" panic, modelled as `none`), and atomically
replaces it by its successor, returning the value observed before the
increment together with the updated counter. -/
def next_global (counter : Nat) : Option (Nat × Nat) :=
  if counter < usizeMax then some (counter, counter + 1) else none

/-- Embedding of `pub struct ProcessUniqueId { prefix: usize, offset: u64 }`.
The field `pfx` is the Rust field `prefix`. -/
structure ProcessUniqueId where
  pfx : Nat
  offset : Nat
  deriving DecidableEq, Repr

/-- One thread's view of the generator state: its thread-local block
(`NEXT_LOCAL_UNIQUE_ID`) plus the process-wide `GLOBAL_COUNTER`. -/
structure ThreadState where
  block : ProcessUniqueId
  counter : Nat
  deriving DecidableEq, Repr

/-- Embedding of the `thread_local!` initializer of `NEXT_LOCAL_UNIQUE_ID`:
`ProcessUniqueId { prefix: next_global(), offset: 0 }`. -/
def initThreadState (counter : Nat) : Option ThreadState :=
  (next_global counter).map fun pg => ⟨⟨pg.1, 0⟩, pg.2⟩

/-- Embedding of `ProcessUniqueId::new`.  Reads the stored block
`next_unique_id`, stores either a rolled-over block (fresh prefix from
`next_global`, offset 0) when `offset == u64::MAX` or the incremented
block otherwise, and returns the value read first.  A panic inside
`next_global` aborts the call (`none`). -/
def ProcessUniqueId.new (s : ThreadState) : Option (ProcessUniqueId × ThreadState) :=
  let next_unique_id := s.block
  if next_unique_id.offset = u64Max then
    match next_global s.counter with
    | none => none
    | some pg => some (next_unique_id, ⟨⟨pg.1, 0⟩, pg.2⟩)
  else
    some (next_unique_id, ⟨⟨next_unique_id.pfx, next_unique_id.offset + 1⟩, s.counter⟩)

/-- Embedding of `impl Default for ProcessUniqueId`: `default()` simply
calls `ProcessUniqueId::new()`. -/
def ProcessUniqueId.default (s : ThreadState) : Option (ProcessUniqueId × ThreadState) :=
  ProcessUniqueId.new s

/-- State of one thread after `n` consecutive `new` calls (`none` once any
call panicked). -/
def stepN (s : ThreadState) : Nat → Option ThreadState
  | 0 => some s
  | n + 1 => (ProcessUniqueId.new s).bind fun r => stepN r.2 n

/-- The identifier returned by the `(n+1)`-th consecutive `new` call
(0-based index `n`). -/
def outN (s : ThreadState) (n : Nat) : Option ProcessUniqueId :=
  (stepN s n).bind fun s' => (ProcessUniqueId.new s').map Prod.fst

/-- The process-wide counter after `k` successful prefix claims, starting
from `globalCounterInit` (`none` once a claim has panicked). -/
def counterAfter : Nat → Option Nat
  | 0 => some globalCounterInit
  | k + 1 => (counterAfter k).bind fun g => (next_global g).map Prod.snd

/-- The prefix handed out by the `(k+1)`-th claim over the process lifetime
(0-based index `k`). -/
def claimValue (k : Nat) : Option Nat :=
  (counterAfter k).bind fun g => (next_global g).map Prod.fst

/-- The sixteen lowercase hexadecimal digit characters used by Rust's
`{:x}` formatter (as in `core::fmt::num`). -/
def hexDigitChar : Nat → Char
  | 0 => '0'
  | 1 => '1'
  | 2 => '2'
  | 3 => '3'
  | 4 => '4'
  | 5 => '5'
  | 6 => '6'
  | 7 => '7'
  | 8 => '8'
  | 9 => '9'
  | 10 => 'a'
  | 11 => 'b'
  | 12 => 'c'
  | 13 => 'd'
  | 14 => 'e'
  | 15 => 'f'
  | _ => '*'

/-- Digit loop of the `{:x}` formatter: most significant digit first, no
leading zeros, empty for 0.  The first argument is fuel bounding the
number of iterations; it is always called with `fuel ≥ n`, which is enough
because the value shrinks by a factor of 16 each round. -/
def hexDigitsAux : Nat → Nat → List Char
  | 0, _ => []
  | _ + 1, 0 => []
  | fuel + 1, n + 1 =>
    hexDigitsAux fuel ((n + 1) / 16) ++ [hexDigitChar ((n + 1) % 16)]

/-- The lowercase hexadecimal digit string of `n` (empty for 0). -/
def hexDigits (n : Nat) : List Char := hexDigitsAux n n

/-- Rust's `{:x}` rendering of an unsigned integer: lowercase hexadecimal,
minimal number of digits, `"0"` for zero, no `"0x"`. -/
def toLowerHex (n : Nat) : String :=
  if n = 0 then "0" else String.mk (hexDigits n)

/-- Embedding of `impl fmt::Display for ProcessUniqueId`:
`write!(f, "puid-\x7b:x\x7d-\x7b:x\x7d", self.prefix, self.offset)`. -/
def ProcessUniqueId.fmt (id : ProcessUniqueId) : String :=
  "puid-" ++ toLowerHex id.pfx ++ "-" ++ toLowerHex id.offset

/-- Numeric value of a lowercase hexadecimal digit character (inverse of
`hexDigitChar` on digits; used to state that the rendering is faithful). -/
def hexCharVal (c : Char) : Nat :=
  if c.toNat ≤ 57 then c.toNat - 48 else c.toNat - 87

/-- Value denoted by a big-endian string of hexadecimal digit characters. -/
def fromHexDigits (l : List Char) : Nat :=
  l.foldl (fun acc c => 16 * acc + hexCharVal c) 0

/-- Embedding of the derived `Ord` instance on `ProcessUniqueId`:
lexicographic comparison in field declaration order, `prefix` first, then
`offset`. -/
def ProcessUniqueId.cmp (a b : ProcessUniqueId) : Ordering :=
  if a.pfx < b.pfx then Ordering.lt
  else if b.pfx < a.pfx then Ordering.gt
  else if a.offset < b.offset then Ordering.lt
  else if b.offset < a.offset then Ordering.gt
  else Ordering.eq

/-- The `<` of the derived `PartialOrd`/`Ord` instance. -/
def ProcessUniqueId.lt (a b : ProcessUniqueId) : Bool :=
  a.cmp b == Ordering.lt

/-- The `==` of the derived `PartialEq` instance: structural equality of
both fields. -/
def ProcessUniqueId.beq (a b : ProcessUniqueId) : Bool :=
  a.pfx == b.pfx && a.offset == b.offset

/-- The stream of field values the derived `Hash` instance feeds to the
hasher, in declaration order.  Two identifiers hash identically (for every
hasher) exactly when these streams coincide. -/
def ProcessUniqueId.hashInputs (a : ProcessUniqueId) : List Nat :=
  [a.pfx, a.offset]

/-! ## Basic lemmas about single steps -/

theorem next_global_lt (g : Nat) (h : g < usizeMax) :
    next_global g = some (g, g + 1) := by
  simp [next_global, h]

theorem next_global_max : next_global usizeMax = none := by
  simp [next_global]

/-- An ordinary (non-exhausted) request: return the stored block, bump its
offset, leave the global counter alone. -/
theorem new_active (s : ThreadState) (h : s.block.offset < u64Max) :
    ProcessUniqueId.new s
      = some (s.block, ⟨⟨s.block.pfx, s.block.offset + 1⟩, s.counter⟩) := by
  simp [ProcessUniqueId.new, Nat.ne_of_lt h]

/-- A rollover request: return the stored (exhausted) block, claim a fresh
prefix from the counter and restart the block at offset 0. -/
theorem new_rollover (s : ThreadState) (h : s.block.offset = u64Max)
    (hg : s.counter < usizeMax) :
    ProcessUniqueId.new s
      = some (s.block, ⟨⟨s.counter, 0⟩, s.counter + 1⟩) := by
  simp [ProcessUniqueId.new, h, next_global_lt s.counter hg]

theorem stepN_zero (s : ThreadState) : stepN s 0 = some s := rfl

theorem stepN_succ_eq (s : ThreadState) (n : Nat) :
    stepN s (n + 1) = (ProcessUniqueId.new s).bind fun r => stepN r.2 n := rfl

theorem outN_eq (s : ThreadState) (n : Nat) :
    outN s n = (stepN s n).bind fun s' => (ProcessUniqueId.new s').map Prod.fst := rfl

/-- Running `i` requests inside one allocation block just slides the offset
forward; the prefix and the global counter are untouched. -/
theorem stepN_steady (i : Nat) : ∀ (p off g : Nat), off + i ≤ u64Max →
    stepN ⟨⟨p, off⟩, g⟩ i = some ⟨⟨p, off + i⟩, g⟩ := by
  induction i with
  | zero => intro p off g _; simp [stepN_zero]
  | succ n ih =>
    intro p off g h
    have hlt : off < u64Max := by omega
    rw [stepN_succ_eq, new_active ⟨⟨p, off⟩, g⟩ hlt]
    have := ih p (off + 1) g (by omega)
    simpa [Nat.add_assoc, Nat.add_comm 1 n] using this

/-- The identifier returned by the `(i+1)`-th request inside one block. -/
theorem outN_steady (p off g i : Nat) (h : off + i < u64Max) :
    outN ⟨⟨p, off⟩, g⟩ i = some ⟨p, off + i⟩ := by
  rw [outN_eq, stepN_steady i p off g (Nat.le_of_lt h)]
  simp [new_active ⟨⟨p, off + i⟩, g⟩ h]

/-- Unfolding lemma for `ProcessUniqueId.new`. -/
theorem new_eq (s : ThreadState) : ProcessUniqueId.new s =
    if s.block.offset = u64Max then
      match next_global s.counter with
      | none => none
      | some pg => some (s.block, ⟨⟨pg.1, 0⟩, pg.2⟩)
    else some (s.block, ⟨⟨s.block.pfx, s.block.offset + 1⟩, s.counter⟩) := rfl

theorem next_global_none (g : Nat) (h : ¬ g < usizeMax) : next_global g = none := by
  simp [next_global, h]

/-- Peeling the last of `n + 1` steps. -/
theorem stepN_succ_right (n : Nat) : ∀ s : ThreadState,
    stepN s (n + 1) = (stepN s n).bind fun s' => (ProcessUniqueId.new s').map Prod.snd := by
  induction n with
  | zero =>
    intro s
    rw [stepN_succ_eq, stepN_zero]
    cases h : ProcessUniqueId.new s <;> simp [stepN_zero, h]
  | succ n ih =>
    intro s
    rw [stepN_succ_eq s (n + 1), stepN_succ_eq s n, Option.bind_assoc]
    exact congrArg (Option.bind (ProcessUniqueId.new s)) (funext fun r => ih r.2)

/-- A fresh thread's block carries a prefix strictly below the counter:
the prefix was claimed from the counter, which then moved past it. -/
theorem initThreadState_pfx_lt_counter (g : Nat) (s : ThreadState)
    (h : initThreadState g = some s) : s.block.pfx < s.counter := by
  rw [initThreadState] at h
  by_cases hg : g < usizeMax
  · rw [next_global_lt g hg] at h
    have hs : s = ⟨⟨g, 0⟩, g + 1⟩ := by simpa using h.symm
    rw [hs]
    simp
  · rw [next_global_none g hg] at h
    simp at h

/-- Every `new` call preserves the invariant that the stored prefix was
claimed before the counter's current value.  This is the sense in which
the `p < g` hypotheses below describe exactly the reachable states. -/
theorem new_preserves_pfx_lt_counter (s : ThreadState) (id : ProcessUniqueId)
    (s' : ThreadState) (hinv : s.block.pfx < s.counter)
    (h : ProcessUniqueId.new s = some (id, s')) :
    s'.block.pfx < s'.counter := by
  rw [new_eq] at h
  by_cases hoff : s.block.offset = u64Max
  · rw [if_pos hoff] at h
    cases hn : next_global s.counter with
    | none => rw [hn] at h; simp at h
    | some pg =>
      rw [hn] at h
      by_cases hc : s.counter < usizeMax
      · rw [next_global_lt s.counter hc] at hn
        have hpg : pg = (s.counter, s.counter + 1) := (Option.some.inj hn).symm
        obtain ⟨_, hs'⟩ := Prod.mk.injEq .. ▸ Option.some.inj h
        rw [← hs', hpg]
        simp
      · rw [next_global_none s.counter hc] at hn
        simp at hn
  · rw [if_neg hoff] at h
    obtain ⟨_, hs'⟩ := Prod.mk.injEq .. ▸ Option.some.inj h
    rw [← hs']
    simpa using hinv

/-! ## Lemmas about the global counter sequence -/

theorem counterAfter_zero : counterAfter 0 = some 0 := rfl

theorem counterAfter_succ (k : Nat) :
    counterAfter (k + 1)
      = (counterAfter k).bind fun g => (next_global g).map Prod.snd := rfl

theorem claimValue_def (k : Nat) :
    claimValue k = (counterAfter k).bind fun g => (next_global g).map Prod.fst := rfl

/-- As long as the counter is not exhausted, it counts the claims made. -/
theorem counterAfter_le : ∀ k, k ≤ usizeMax → counterAfter k = some k := by
  intro k
  induction k with
  | zero => intro _; rfl
  | succ n ih =>
    intro h
    rw [counterAfter_succ, ih (by omega), Option.some_bind, next_global_lt n (by omega)]
    rfl

theorem counterAfter_inj : ∀ k g, counterAfter k = some g → g = k := by
  intro k
  induction k with
  | zero =>
    intro g h
    rw [counterAfter_zero] at h
    exact (Option.some.inj h).symm
  | succ n ih =>
    intro g h
    rw [counterAfter_succ] at h
    cases hc : counterAfter n with
    | none => rw [hc] at h; simp at h
    | some g' =>
      rw [hc, Option.some_bind] at h
      by_cases hg' : g' < usizeMax
      · rw [next_global_lt g' hg'] at h
        have h1 : g' + 1 = g := by simpa using h
        have h2 := ih g' hc
        omega
      · rw [next_global_none g' hg'] at h
        simp at h

theorem claimValue_lt (k : Nat) (hk : k < usizeMax) : claimValue k = some k := by
  rw [claimValue_def, counterAfter_le k (by omega), Option.some_bind,
    next_global_lt k hk]
  rfl

theorem claimValue_val : ∀ k v, claimValue k = some v → v = k := by
  intro k v h
  rw [claimValue_def] at h
  cases hc : counterAfter k with
  | none => rw [hc] at h; simp at h
  | some g =>
    rw [hc, Option.some_bind] at h
    by_cases hg : g < usizeMax
    · rw [next_global_lt g hg] at h
      have h1 : g = v := by simpa using h
      have h2 := counterAfter_inj k g hc
      omega
    · rw [next_global_none g hg] at h
      simp at h

/-! ## Lemmas about the hexadecimal rendering -/

theorem hexDigitsAux_fuel_zero (n : Nat) : hexDigitsAux 0 n = [] := rfl

theorem hexDigitsAux_zero (fuel : Nat) : hexDigitsAux fuel 0 = [] := by
  cases fuel <;> rfl

theorem hexDigitsAux_succ (fuel m : Nat) :
    hexDigitsAux (fuel + 1) (m + 1)
      = hexDigitsAux fuel ((m + 1) / 16) ++ [hexDigitChar ((m + 1) % 16)] := rfl

theorem fromHexDigits_append (l : List Char) (c : Char) :
    fromHexDigits (l ++ [c]) = 16 * fromHexDigits l + hexCharVal c := by
  simp [fromHexDigits, List.foldl_append]

theorem hexCharVal_hexDigitChar (d : Nat) (h : d < 16) :
    hexCharVal (hexDigitChar d) = d := by
  interval_cases d <;> decide

/-- Reading the produced digits back yields the number: the rendering is a
faithful base-16 representation. -/
theorem fromHexDigits_hexDigitsAux (fuel : Nat) : ∀ n, n ≤ fuel →
    fromHexDigits (hexDigitsAux fuel n) = n := by
  induction fuel with
  | zero =>
    intro n hn
    have h0 : n = 0 := by omega
    subst h0
    rfl
  | succ f ih =>
    intro n hn
    cases n with
    | zero => rfl
    | succ m =>
      have hdiv : (m + 1) / 16 < m + 1 := Nat.div_lt_self (Nat.succ_pos m) (by omega)
      have hmod : (m + 1) % 16 < 16 := Nat.mod_lt _ (by omega)
      rw [hexDigitsAux_succ, fromHexDigits_append, ih ((m + 1) / 16) (by omega),
        hexCharVal_hexDigitChar _ hmod]
      omega

theorem hexDigitsAux_ne_nil (fuel n : Nat) (h0 : 0 < n) (hf : n ≤ fuel) :
    hexDigitsAux fuel n ≠ [] := by
  cases fuel with
  | zero => omega
  | succ f =>
    cases n with
    | zero => omega
    | succ m =>
      rw [hexDigitsAux_succ]
      simp

theorem hexDigitChar_ne_zero (d : Nat) (h0 : 0 < d) (h16 : d < 16) :
    hexDigitChar d ≠ '0' := by
  interval_cases d <;> decide

/-- The leading digit of a nonzero number is never the character `'0'`:
the rendering has no leading zeros. -/
theorem hexDigitsAux_head_ne_zero (fuel : Nat) : ∀ n, 0 < n → n ≤ fuel →
    (hexDigitsAux fuel n).head? ≠ some ('0') := by
  induction fuel with
  | zero => intro n h0 hf; omega
  | succ f ih =>
    intro n h0 hf
    cases n with
    | zero => omega
    | succ m =>
      rw [hexDigitsAux_succ]
      by_cases hq : (m + 1) / 16 = 0
      · have h16 : m + 1 < 16 := by omega
        have hmod : (m + 1) % 16 = m + 1 := Nat.mod_eq_of_lt h16
        rw [hq, hexDigitsAux_zero, hmod]
        simpa using hexDigitChar_ne_zero (m + 1) (Nat.succ_pos m) h16
      · have hdiv : (m + 1) / 16 < m + 1 := Nat.div_lt_self (Nat.succ_pos m) (by omega)
        have hq0 : 0 < (m + 1) / 16 := by omega
        have hqf : (m + 1) / 16 ≤ f := by omega
        have hne := hexDigitsAux_ne_nil f ((m + 1) / 16) hq0 hqf
        have hih := ih ((m + 1) / 16) hq0 hqf
        obtain ⟨hd, tl, heq⟩ := List.exists_cons_of_ne_nil hne
        rw [heq]
        rw [heq] at hih
        simpa using hih

theorem hexDigitChar_range (d : Nat) (h : d < 16) :
    (48 ≤ (hexDigitChar d).toNat ∧ (hexDigitChar d).toNat ≤ 57) ∨
    (97 ≤ (hexDigitChar d).toNat ∧ (hexDigitChar d).toNat ≤ 102) := by
  interval_cases d <;> decide

/-- Every produced character is a decimal digit or one of `a`–`f`:
lowercase hexadecimal. -/
theorem hexDigitsAux_mem_range (fuel : Nat) : ∀ n c, c ∈ hexDigitsAux fuel n →
    (48 ≤ c.toNat ∧ c.toNat ≤ 57) ∨ (97 ≤ c.toNat ∧ c.toNat ≤ 102) := by
  induction fuel with
  | zero =>
    intro n c hc
    rw [hexDigitsAux_fuel_zero] at hc
    simp at hc
  | succ f ih =>
    intro n c hc
    cases n with
    | zero =>
      rw [hexDigitsAux_zero] at hc
      simp at hc
    | succ m =>
      rw [hexDigitsAux_succ] at hc
      rcases List.mem_append.mp hc with h | h
      · exact ih _ c h
      · have hcc : c = hexDigitChar ((m + 1) % 16) := by simpa using h
        rw [hcc]
        exact hexDigitChar_range _ (Nat.mod_lt _ (by omega))

/-! ## Claim theorems -/

/-- **C1.** Starting from a freshly initialized thread (its block is
`{pfx: g₀, offset: 0}` where `g₀` was claimed from the global counter),
the `N` identifiers generated consecutively carry offsets `0, 1, …, N-1`
and all share the same prefix `g₀`, provided the offset range is not
exhausted (`N ≤ u64::MAX`). -/
theorem C1_thread_sequence (g₀ : Nat) (s₀ : ThreadState)
    (hinit : initThreadState g₀ = some s₀) (N i : Nat)
    (hN : N ≤ u64Max) (hi : i < N) :
    outN s₀ i = some ⟨g₀, i⟩ := by
  have hg : g₀ < usizeMax := by
    by_contra hge
    simp [initThreadState, next_global, hge] at hinit
  have hs : s₀ = ⟨⟨g₀, 0⟩, g₀ + 1⟩ := by
    simp [initThreadState, next_global_lt g₀ hg] at hinit
    exact hinit.symm
  subst hs
  have := outN_steady g₀ 0 (g₀ + 1) i (by omega)
  simpa using this

/-- Witness for C1 at `g₀ = 0`, `N = 3`, `i = 2`. -/
theorem C1_thread_sequence_witness :
    outN ⟨⟨0, 0⟩, 1⟩ 2 = some ⟨0, 2⟩ :=
  C1_thread_sequence 0 ⟨⟨0, 0⟩, 1⟩ (by decide) 3 2 (by decide) (by decide)

/-- **C2.** From a block `{pfx: p, offset: u64::MAX - K}` (with the global
counter at `g`; any reachable block has `p < g`), the next `K + 1` requests
return prefix `p` with offsets `u64::MAX - K, …, u64::MAX`; the request
after those returns the freshly claimed prefix (≠ `p`) at offset 0, and
the one after that returns offset 1 with that same new prefix. -/
theorem C2_rollover_behavior (p g K : Nat) (hK : K ≤ u64Max) (hpg : p < g)
    (hg : g < usizeMax) :
    (∀ i, i ≤ K → outN ⟨⟨p, u64Max - K⟩, g⟩ i = some ⟨p, u64Max - K + i⟩) ∧
    outN ⟨⟨p, u64Max - K⟩, g⟩ (K + 1) = some ⟨g, 0⟩ ∧ g ≠ p ∧
    outN ⟨⟨p, u64Max - K⟩, g⟩ (K + 2) = some ⟨g, 1⟩ := by
  have hmax : u64Max - K + K = u64Max := by omega
  have hfull : stepN ⟨⟨p, u64Max - K⟩, g⟩ K = some ⟨⟨p, u64Max⟩, g⟩ := by
    have := stepN_steady K p (u64Max - K) g (by omega)
    rwa [hmax] at this
  have hroll := new_rollover ⟨⟨p, u64Max⟩, g⟩ rfl hg
  have h0lt : (0 : Nat) < u64Max := by decide
  have h1lt : (1 : Nat) < u64Max := by decide
  have hact0 := new_active ⟨⟨g, 0⟩, g + 1⟩ h0lt
  have hact1 := new_active ⟨⟨g, 1⟩, g + 1⟩ h1lt
  have hstep1 : stepN ⟨⟨p, u64Max - K⟩, g⟩ (K + 1) = some ⟨⟨g, 0⟩, g + 1⟩ := by
    rw [stepN_succ_right, hfull, Option.some_bind, hroll]
    rfl
  have hstep2 : stepN ⟨⟨p, u64Max - K⟩, g⟩ (K + 2) = some ⟨⟨g, 1⟩, g + 1⟩ := by
    rw [show K + 2 = (K + 1) + 1 from rfl, stepN_succ_right, hstep1,
      Option.some_bind, hact0]
    rfl
  refine ⟨?_, ?_, by omega, ?_⟩
  · intro i hi
    rcases Nat.lt_or_ge i K with hlt | hge
    · exact outN_steady p (u64Max - K) g i (by omega)
    · have hiK : i = K := by omega
      subst hiK
      rw [outN_eq, hfull, Option.some_bind, hroll, hmax]
      rfl
  · rw [outN_eq, hstep1, Option.some_bind, hact0]
    rfl
  · rw [outN_eq, hstep2, Option.some_bind, hact1]
    rfl

/-- Witness for C2 at `p = 0`, `g = 1`, `K = 2`. -/
theorem C2_rollover_behavior_witness :
    outN ⟨⟨0, u64Max - 2⟩, 1⟩ 2 = some ⟨0, u64Max - 2 + 2⟩ ∧
    outN ⟨⟨0, u64Max - 2⟩, 1⟩ 3 = some ⟨1, 0⟩ ∧
    outN ⟨⟨0, u64Max - 2⟩, 1⟩ 4 = some ⟨1, 1⟩ := by
  have h := C2_rollover_behavior 0 1 2 (by decide) (by decide) (by decide)
  exact ⟨h.1 2 (Nat.le_refl 2), h.2.1, h.2.2.2⟩

/-- **C3, counterexample.** With the stored block exhausted
(`{pfx: 0, offset: u64::MAX}`) and the global counter at 5, `new` claims
prefix 5 and replaces the block with `{pfx: 5, offset: 0}`, but the value
returned by this same request is the old block `{pfx: 0, offset: u64::MAX}`,
not the new block's value `{pfx: 5, offset: 0}` as the claim states. -/
theorem C3_counterexample :
    ProcessUniqueId.new ⟨⟨0, u64Max⟩, 5⟩ = some (⟨0, u64Max⟩, ⟨⟨5, 0⟩, 6⟩) ∧
    (⟨0, u64Max⟩ : ProcessUniqueId) ≠ ⟨5, 0⟩ := by
  decide

/-- **C3, amended.** A request on a thread whose stored block has
`offset = u64::MAX` claims a new prefix from the process-wide counter and
replaces the thread's block with `{pfx: new_prefix, offset: 0}`, but it
returns the *old* (exhausted) block's value for this same request; it is
the *next* request that returns the new block's value (new prefix,
offset 0). -/
theorem C3_rollover_returns_old (s : ThreadState) (h : s.block.offset = u64Max)
    (hg : s.counter < usizeMax) :
    ProcessUniqueId.new s = some (s.block, ⟨⟨s.counter, 0⟩, s.counter + 1⟩) ∧
    outN s 1 = some ⟨s.counter, 0⟩ := by
  have hroll := new_rollover s h hg
  refine ⟨hroll, ?_⟩
  have hstep : stepN s 1 = some ⟨⟨s.counter, 0⟩, s.counter + 1⟩ := by
    rw [stepN_succ_eq, hroll, Option.some_bind, stepN_zero]
  have h0lt : (0 : Nat) < u64Max := by decide
  rw [outN_eq, hstep, Option.some_bind, new_active ⟨⟨s.counter, 0⟩, s.counter + 1⟩ h0lt]
  rfl

/-- Witness for the amended C3 at block `{pfx: 0, offset: u64::MAX}`,
counter 5. -/
theorem C3_rollover_returns_old_witness :
    ProcessUniqueId.new ⟨⟨0, u64Max⟩, 5⟩ = some (⟨0, u64Max⟩, ⟨⟨5, 0⟩, 6⟩) ∧
    outN ⟨⟨0, u64Max⟩, 5⟩ 1 = some ⟨5, 0⟩ :=
  C3_rollover_returns_old ⟨⟨0, u64Max⟩, 5⟩ rfl (by decide)

/-- **C4.** The process-wide counter starts at 0; every successful claim
returns the value it observed before the increment and bumps the counter
by exactly one; hence the `(k+1)`-th claim of the process lifetime returns
prefix `k`, and no prefix value is ever issued twice. -/
theorem C4_counter_claims :
    counterAfter 0 = some globalCounterInit ∧ globalCounterInit = 0 ∧
    (∀ g v g', next_global g = some (v, g') → v = g ∧ g' = g + 1) ∧
    (∀ k, k < usizeMax → claimValue k = some k) ∧
    (∀ j k v, claimValue j = some v → claimValue k = some v → j = k) := by
  refine ⟨rfl, rfl, ?_, claimValue_lt, ?_⟩
  · intro g v g' h
    by_cases hg : g < usizeMax
    · rw [next_global_lt g hg] at h
      have h1 := Option.some.inj h
      exact ⟨(congrArg Prod.fst h1).symm, (congrArg Prod.snd h1).symm⟩
    · rw [next_global_none g hg] at h
      simp at h
  · intro j k v hj hk
    have h1 := claimValue_val j v hj
    have h2 := claimValue_val k v hk
    omega

/-- Witness for C4: the third claim hands out prefix 2, and equal claim
values force equal claim indices. -/
theorem C4_counter_claims_witness :
    claimValue 2 = some 2 ∧ (1 : Nat) = 1 :=
  ⟨C4_counter_claims.2.2.2.1 2 (by decide),
   C4_counter_claims.2.2.2.2 1 1 1 (by decide) (by decide)⟩

/-- **C5.** A prefix claim fails (the "Snow Crash" panic) exactly when the
counter already holds `usize::MAX`; for every smaller value it succeeds.
Identifier generation as a whole fails exactly when the thread's offset is
exhausted *and* the counter is exhausted — the panic in `next_global` is
the only failure mode. -/
theorem C5_exhaustion_only_failure :
    (∀ g, g ≤ usizeMax → (next_global g = none ↔ g = usizeMax)) ∧
    (∀ g, g < usizeMax → next_global g = some (g, g + 1)) ∧
    (∀ s : ThreadState, s.counter ≤ usizeMax →
      (ProcessUniqueId.new s = none
        ↔ (s.block.offset = u64Max ∧ s.counter = usizeMax))) := by
  refine ⟨?_, next_global_lt, ?_⟩
  · intro g hg
    by_cases h : g < usizeMax
    · rw [next_global_lt g h]
      simp
      omega
    · rw [next_global_none g h]
      simp
      omega
  · intro s hs
    by_cases hoff : s.block.offset = u64Max
    · by_cases hc : s.counter < usizeMax
      · rw [new_rollover s hoff hc]
        simp [hoff]
        omega
      · have hceq : s.counter = usizeMax := by omega
        have hng : next_global s.counter = none := next_global_none s.counter hc
        rw [new_eq, if_pos hoff, hng]
        simp [hoff, hceq]
    · have hact : ProcessUniqueId.new s
          = some (s.block, ⟨⟨s.block.pfx, s.block.offset + 1⟩, s.counter⟩) := by
        rw [new_eq, if_neg hoff]
      rw [hact]
      simp [hoff]

/-- Witness for C5: counter 5 claims successfully, counter `usize::MAX`
panics, and a `new` call with a non-exhausted block never fails. -/
theorem C5_exhaustion_only_failure_witness :
    (next_global usizeMax = none ↔ usizeMax = usizeMax) ∧
    next_global 5 = some (5, 6) ∧
    (ProcessUniqueId.new ⟨⟨0, 3⟩, usizeMax⟩ = none
      ↔ ((3 : Nat) = u64Max ∧ usizeMax = usizeMax)) :=
  ⟨C5_exhaustion_only_failure.1 usizeMax (Nat.le_refl usizeMax),
   C5_exhaustion_only_failure.2.1 5 (by decide),
   C5_exhaustion_only_failure.2.2 ⟨⟨0, 3⟩, usizeMax⟩ (Nat.le_refl usizeMax)⟩

/-- **C6.** The textual rendering is `"puid-"`, the prefix in lowercase
hexadecimal, `"-"`, and the offset in lowercase hexadecimal: the digit
strings decode back to the rendered numbers, carry no leading zero and use
only the characters `0`–`9` and `a`–`f`; `{pfx: 0, offset: 0}` renders as
`"puid-0-0"` and `{pfx: 255, offset: 16}` as `"puid-ff-10"`. -/
theorem C6_render_text :
    (∀ id : ProcessUniqueId,
      ProcessUniqueId.fmt id
        = "puid-" ++ toLowerHex id.pfx ++ "-" ++ toLowerHex id.offset) ∧
    (∀ n : Nat, fromHexDigits (hexDigits n) = n) ∧
    (∀ n : Nat, n ≠ 0 → (hexDigits n).head? ≠ some ('0')) ∧
    (∀ n : Nat, ∀ c, c ∈ hexDigits n →
      (48 ≤ c.toNat ∧ c.toNat ≤ 57) ∨ (97 ≤ c.toNat ∧ c.toNat ≤ 102)) ∧
    ProcessUniqueId.fmt ⟨0, 0⟩ = "puid-0-0" ∧
    ProcessUniqueId.fmt ⟨255, 16⟩ = "puid-ff-10" := by
  refine ⟨fun id => rfl, ?_, ?_, ?_, by decide, by decide⟩
  · intro n
    exact fromHexDigits_hexDigitsAux n n (Nat.le_refl n)
  · intro n hn
    exact hexDigitsAux_head_ne_zero n n (by omega) (Nat.le_refl n)
  · intro n c hc
    exact hexDigitsAux_mem_range n n c hc

/-- Witness for C6 at `n = 255`. -/
theorem C6_render_text_witness :
    fromHexDigits (hexDigits 255) = 255 ∧
    (hexDigits 255).head? ≠ some ('0') :=
  ⟨C6_render_text.2.1 255, C6_render_text.2.2.1 255 (by decide)⟩

/-- **C7.** The derived comparison is a total order testing `pfx` first
and `offset` only on ties: for any two identifiers exactly one of
`A < B`, `A == B`, `B < A` holds; `==` holds exactly when both fields
agree; and identifiers with equal fields feed identical input streams to
any hasher. -/
theorem C7_order_total (a b : ProcessUniqueId) :
    ((a.lt b = true ∧ a.beq b = false ∧ b.lt a = false) ∨
     (a.lt b = false ∧ a.beq b = true ∧ b.lt a = false) ∨
     (a.lt b = false ∧ a.beq b = false ∧ b.lt a = true)) ∧
    (a.lt b = true ↔ (a.pfx < b.pfx ∨ (a.pfx = b.pfx ∧ a.offset < b.offset))) ∧
    (a.beq b = true ↔ (a.pfx = b.pfx ∧ a.offset = b.offset)) ∧
    (a.beq b = true → a.hashInputs = b.hashInputs) := by
  have hlt : ∀ x y : ProcessUniqueId,
      (x.lt y = true) ↔ (x.pfx < y.pfx ∨ (x.pfx = y.pfx ∧ x.offset < y.offset)) := by
    intro x y
    by_cases h1 : x.pfx < y.pfx
    · have hc : x.cmp y = Ordering.lt := by simp [ProcessUniqueId.cmp, h1]
      have hl : x.lt y = true := by simp only [ProcessUniqueId.lt, hc]; try rfl
      simp only [hl, true_iff]
      omega
    · by_cases h2 : y.pfx < x.pfx
      · have hc : x.cmp y = Ordering.gt := by simp [ProcessUniqueId.cmp, h1, h2]
        have hl : x.lt y = false := by simp only [ProcessUniqueId.lt, hc]; try rfl
        simp only [hl, Bool.false_eq_true, false_iff]
        omega
      · by_cases h3 : x.offset < y.offset
        · have hc : x.cmp y = Ordering.lt := by simp [ProcessUniqueId.cmp, h1, h2, h3]
          have hl : x.lt y = true := by simp only [ProcessUniqueId.lt, hc]; try rfl
          simp only [hl, true_iff]
          omega
        · by_cases h4 : y.offset < x.offset
          · have hc : x.cmp y = Ordering.gt := by
              simp [ProcessUniqueId.cmp, h1, h2, h3, h4]
            have hl : x.lt y = false := by simp only [ProcessUniqueId.lt, hc]; try rfl
            simp only [hl, Bool.false_eq_true, false_iff]
            omega
          · have hc : x.cmp y = Ordering.eq := by
              simp [ProcessUniqueId.cmp, h1, h2, h3, h4]
            have hl : x.lt y = false := by simp only [ProcessUniqueId.lt, hc]; try rfl
            simp only [hl, Bool.false_eq_true, false_iff]
            omega
  have hbeq : (a.beq b = true) ↔ (a.pfx = b.pfx ∧ a.offset = b.offset) := by
    simp [ProcessUniqueId.beq]
  have hltf : ∀ x y : ProcessUniqueId, (x.lt y = false)
      ↔ ¬ (x.pfx < y.pfx ∨ (x.pfx = y.pfx ∧ x.offset < y.offset)) := by
    intro x y
    rw [← hlt x y]
    exact ⟨fun h => by simp [h], fun h => by simpa using h⟩
  have hbeqf : (a.beq b = false) ↔ ¬ (a.pfx = b.pfx ∧ a.offset = b.offset) := by
    rw [← hbeq]
    exact ⟨fun h => by simp [h], fun h => by simpa using h⟩
  refine ⟨?_, hlt a b, hbeq, ?_⟩
  · rcases Nat.lt_trichotomy a.pfx b.pfx with h | h | h
    · exact Or.inl ⟨(hlt a b).mpr (Or.inl h), hbeqf.mpr (by omega),
        (hltf b a).mpr (by omega)⟩
    · rcases Nat.lt_trichotomy a.offset b.offset with h2 | h2 | h2
      · exact Or.inl ⟨(hlt a b).mpr (Or.inr ⟨h, h2⟩), hbeqf.mpr (by omega),
          (hltf b a).mpr (by omega)⟩
      · exact Or.inr (Or.inl ⟨(hltf a b).mpr (by omega), hbeq.mpr ⟨h, h2⟩,
          (hltf b a).mpr (by omega)⟩)
      · exact Or.inr (Or.inr ⟨(hltf a b).mpr (by omega), hbeqf.mpr (by omega),
          (hlt b a).mpr (Or.inr ⟨h.symm, h2⟩)⟩)
    · exact Or.inr (Or.inr ⟨(hltf a b).mpr (by omega), hbeqf.mpr (by omega),
        (hlt b a).mpr (Or.inl h)⟩)
  · intro h
    obtain ⟨h1, h2⟩ := hbeq.mp h
    simp [ProcessUniqueId.hashInputs, h1, h2]

/-- Witness for C7 at `A = {pfx: 0, offset: 1}`, `B = {pfx: 0, offset: 2}`. -/
theorem C7_order_total_witness :
    (((⟨0, 1⟩ : ProcessUniqueId).lt ⟨0, 2⟩ = true ∧
      (⟨0, 1⟩ : ProcessUniqueId).beq ⟨0, 2⟩ = false ∧
      (⟨0, 2⟩ : ProcessUniqueId).lt ⟨0, 1⟩ = false) ∨
     ((⟨0, 1⟩ : ProcessUniqueId).lt ⟨0, 2⟩ = false ∧
      (⟨0, 1⟩ : ProcessUniqueId).beq ⟨0, 2⟩ = true ∧
      (⟨0, 2⟩ : ProcessUniqueId).lt ⟨0, 1⟩ = false) ∨
     ((⟨0, 1⟩ : ProcessUniqueId).lt ⟨0, 2⟩ = false ∧
      (⟨0, 1⟩ : ProcessUniqueId).beq ⟨0, 2⟩ = false ∧
      (⟨0, 2⟩ : ProcessUniqueId).lt ⟨0, 1⟩ = true)) ∧
    ((⟨0, 1⟩ : ProcessUniqueId).beq ⟨0, 2⟩ = true
      ↔ ((0 : Nat) = 0 ∧ (1 : Nat) = 2)) :=
  ⟨(C7_order_total ⟨0, 1⟩ ⟨0, 2⟩).1, (C7_order_total ⟨0, 1⟩ ⟨0, 2⟩).2.2.1⟩

/-- **C8.** A request that finds its block below the offset maximum leaves
the process-wide counter untouched: the whole effect is on the calling
thread's own block. -/
theorem C8_no_global_effect (s : ThreadState) (h : s.block.offset < u64Max) :
    ProcessUniqueId.new s
      = some (s.block, ⟨⟨s.block.pfx, s.block.offset + 1⟩, s.counter⟩) ∧
    ((ProcessUniqueId.new s).map fun r => r.2.counter) = some s.counter := by
  have ha := new_active s h
  exact ⟨ha, by rw [ha]; rfl⟩

/-- Witness for C8 at block `{pfx: 3, offset: 7}`, counter 9. -/
theorem C8_no_global_effect_witness :
    ProcessUniqueId.new ⟨⟨3, 7⟩, 9⟩ = some (⟨3, 7⟩, ⟨⟨3, 8⟩, 9⟩) ∧
    ((ProcessUniqueId.new ⟨⟨3, 7⟩, 9⟩).map fun r => r.2.counter) = some 9 :=
  C8_no_global_effect ⟨⟨3, 7⟩, 9⟩ (by decide)

/-- **C9.** `default()` is `ProcessUniqueId::new()`: same returned
identifier and same successor state from every state, and in particular
its result varies with the generator state rather than being a fixed
value. -/
theorem C9_default_generates :
    (∀ s : ThreadState, ProcessUniqueId.default s = ProcessUniqueId.new s) ∧
    (ProcessUniqueId.default ⟨⟨1, 5⟩, 9⟩).map Prod.fst = some ⟨1, 5⟩ ∧
    (ProcessUniqueId.default ⟨⟨2, 7⟩, 9⟩).map Prod.fst = some ⟨2, 7⟩ :=
  ⟨fun _ => rfl, by decide, by decide⟩

/-- **C10.** Values claimed from the counter are always strictly below
`usize::MAX` (the assertion fires first), the thread-local initializer
never installs prefix `usize::MAX`, and `new` preserves this: no
identifier ever carries prefix `usize::MAX`. -/
theorem C10_prefix_below_max :
    (∀ g v g', next_global g = some (v, g') → v < usizeMax) ∧
    (∀ g s, initThreadState g = some s → s.block.pfx < usizeMax) ∧
    (∀ s id s', s.block.pfx < usizeMax → ProcessUniqueId.new s = some (id, s') →
      id.pfx < usizeMax ∧ s'.block.pfx < usizeMax) := by
  have hng : ∀ g v g', next_global g = some (v, g') → v = g ∧ g' = g + 1 ∧ g < usizeMax := by
    intro g v g' h
    by_cases hg : g < usizeMax
    · rw [next_global_lt g hg] at h
      have h1 := Option.some.inj h
      exact ⟨(congrArg Prod.fst h1).symm, (congrArg Prod.snd h1).symm, hg⟩
    · rw [next_global_none g hg] at h
      simp at h
  refine ⟨?_, ?_, ?_⟩
  · intro g v g' h
    obtain ⟨h1, _, h3⟩ := hng g v g' h
    omega
  · intro g s h
    rw [initThreadState] at h
    cases hn : next_global g with
    | none => rw [hn] at h; simp at h
    | some pg =>
      rw [hn] at h
      obtain ⟨h1, _, h3⟩ := hng g pg.1 pg.2 (by rw [hn])
      have hs : s = ⟨⟨pg.1, 0⟩, pg.2⟩ := by
        simpa using h.symm
      rw [hs]
      simpa using by omega
  · intro s id s' hpfx h
    rw [new_eq] at h
    by_cases hoff : s.block.offset = u64Max
    · rw [if_pos hoff] at h
      cases hn : next_global s.counter with
      | none => rw [hn] at h; simp at h
      | some pg =>
        rw [hn] at h
        obtain ⟨h1, _, h3⟩ := hng s.counter pg.1 pg.2 (by rw [hn])
        obtain ⟨hid, hs'⟩ := Prod.mk.injEq .. ▸ Option.some.inj h
        rw [← hid, ← hs']
        exact ⟨hpfx, by simpa using by omega⟩
    · rw [if_neg hoff] at h
      obtain ⟨hid, hs'⟩ := Prod.mk.injEq .. ▸ Option.some.inj h
      rw [← hid, ← hs']
      exact ⟨hpfx, hpfx⟩

/-- Witness for C10: the claim at counter 5 yields 5 < `usize::MAX`, and a
`new` call from block `{pfx: 3, offset: 7}` keeps the prefix below
`usize::MAX`. -/
theorem C10_prefix_below_max_witness :
    (5 : Nat) < usizeMax ∧
    ((⟨3, 7⟩ : ProcessUniqueId).pfx < usizeMax ∧
      (⟨⟨3, 8⟩, 9⟩ : ThreadState).block.pfx < usizeMax) :=
  ⟨C10_prefix_below_max.1 5 5 6 (by decide),
   C10_prefix_below_max.2.2 ⟨⟨3, 7⟩, 9⟩ ⟨3, 7⟩ ⟨⟨3, 8⟩, 9⟩ (by decide) (by decide)⟩

end Snowflake
